import Mathlib

/-!
Shallow embedding of `scripts/jsonl_distill.py`: an incremental JSONL
tail-extractor with a byte-offset cursor store, a two-phase
pending-batch/commit protocol, and a record decoder/filter.

Modelling conventions:
* file contents are byte lists (`List Nat`, newline = 10); offsets are `Nat`;
* Python dicts that the script itself writes are modelled as structures with
  the same field names (`CursorEntry`, matching the `files[key] = {...}`
  dicts); the persisted cursor store is an association list keyed by path,
  with dict-update semantics (`setEntry`: replace in place, else append);
* `json.loads` (Python standard library, not repository code) is an oracle
  parameter of type `JsonParse`: `none` models a parse failure
  (`json.loads` raising), `some j` the parsed value;
* wall-clock fields (`updatedAtMs`, `createdAtMs`) and the time-derived batch
  id are not modelled; the batch path is an explicit parameter;
* Python exceptions that escape `run_extract` are modelled with
  `Except Unit`; filesystem effects of `commit_batch` are surfaced as an
  event list so that their order and best-effort nature can be stated.
-/

/-- Python whitespace for `str.strip` (ASCII range, which is what the
session files contain). -/
def isPyWs (c : Char) : Bool :=
  c == ' ' || c == '\t' || c == '\n' || c == '\r' || c == '\x0b' || c == '\x0c'

/-- `s.strip()` on a character list. -/
def stripChars (s : List Char) : List Char :=
  ((s.dropWhile isPyWs).reverse.dropWhile isPyWs).reverse

/-- `s.startswith(pat)` on character lists (pattern first). -/
def beginsWith : List Char → List Char → Bool
  | [], _ => true
  | _ :: _, [] => false
  | p :: pt, c :: ct => p == c && beginsWith pt ct

/-- `s.endswith(pat)` on character lists (pattern first). -/
def endsWithL (pat s : List Char) : Bool :=
  beginsWith pat.reverse s.reverse

/-- Index of the first occurrence of `pat` as a contiguous sublist of `s`
(Python `s.find(pat)` / the position where a regex literal first matches). -/
def findSub (pat : List Char) : List Char → Option Nat
  | [] => if pat = [] then some 0 else none
  | c :: rest =>
    if beginsWith pat (c :: rest) then some 0
    else (findSub pat rest).map (· + 1)

/-- `pat in s` (Python substring test). -/
def hasSub (pat s : List Char) : Bool :=
  (findSub pat s).isSome

/-- `re.sub(openT + lazy-anything + closeT, "", s)`: repeatedly remove the
region from each occurrence of `openT` up to the earliest following `closeT`
(non-greedy), scanning left to right.  The fuel argument is called with
`s.length`, which suffices because every removal consumes at least one
character of the nonempty concrete delimiters used below. -/
def cutBlocksFuel (openT closeT : List Char) : Nat → List Char → List Char
  | 0, s => s
  | fuel + 1, s =>
    match findSub openT s with
    | none => s
    | some i =>
      let afterOpen := s.drop (i + openT.length)
      match findSub closeT afterOpen with
      | none => s
      | some j =>
        s.take i ++ cutBlocksFuel openT closeT fuel (afterOpen.drop (j + closeT.length))

/-- Length of the leading run of `c`. -/
def countLeading (c : Char) : List Char → Nat
  | [] => 0
  | x :: t => if x == c then 1 + countLeading c t else 0

/-- Drop the leading run of `c`. -/
def dropLeadingChar (c : Char) : List Char → List Char
  | [] => []
  | x :: t => if x == c then dropLeadingChar c t else x :: t

/-- `re.sub(three-or-more-newlines, two-newlines, s)`: collapse every run of
three or more newline characters to exactly two; shorter runs are unchanged.
Fuel (called with `s.length`) again suffices: each step consumes at least one
character. -/
def collapseNlFuel : Nat → List Char → List Char
  | 0, s => s
  | fuel + 1, s =>
    match s with
    | [] => []
    | c :: rest =>
      if c == '\n' then
        let n := 1 + countLeading '\n' rest
        let rest2 := dropLeadingChar '\n' rest
        (if 3 ≤ n then ['\n', '\n'] else List.replicate n '\n') ++ collapseNlFuel fuel rest2
      else c :: collapseNlFuel fuel rest

/-- The literal delimiters of `_clean_text`'s two regexes. -/
def memOpenTok : List Char := "<relevant-memories>".toList

def memCloseTok : List Char := "</relevant-memories>".toList

def fenceJsonTok : List Char := "```json".toList

def fenceTok : List Char := "```".toList

/-- `_clean_text` (`scripts/jsonl_distill.py` lines 98-112): strip; if the
injected-memory open tag occurs, delete every
open-tag…close-tag block (non-greedy); delete every fenced json block;
collapse runs of 3+ newlines to 2; strip again. -/
def cleanText (s0 : List Char) : List Char :=
  let s := stripChars s0
  if s = [] then []
  else
    let s1 := if hasSub memOpenTok s then cutBlocksFuel memOpenTok memCloseTok s.length s else s
    let s2 := cutBlocksFuel fenceJsonTok fenceTok s1.length s1
    stripChars (collapseNlFuel s2.length s2)

/-- `NOISE_PREFIXES` (lines 40-43).  The first entry is the exact
(mojibake) character sequence present in the source file:
U+00E2 U+0153 U+2026 followed by " New session started". -/
def noiseMarks : List (List Char) :=
  ["âœ… New session started".toList, "NO_REPLY".toList]

/-- `_is_noise` (lines 115-127): empty, or starts with a noise marker, or
longer than 2000 characters, or (stripped) both starts and ends with a
code fence. -/
def isNoise (s : List Char) : Bool :=
  if s = [] then true
  else if noiseMarks.any (fun p => beginsWith p s) then true
  else if 2000 < s.length then true
  else if beginsWith fenceTok (stripChars s) && endsWithL fenceTok (stripChars s) then true
  else false

/-- JSON values as produced by `json.loads`.  Objects are association lists
(`json.loads` yields dicts, so keys are distinct). -/
inductive Json where
  | null
  | bool (b : Bool)
  | num (n : Int)
  | str (s : String)
  | arr (elems : List Json)
  | obj (fields : List (String × Json))

/-- `d.get(key)` on a JSON object's fields. -/
def jGet : List (String × Json) → String → Option Json
  | [], _ => none
  | (k, v) :: t, key => if k = key then some v else jGet t key

/-- Python truthiness of a JSON value. -/
def jTruthy : Json → Bool
  | .null => false
  | .bool b => b
  | .num n => n != 0
  | .str s => s != ""
  | .arr l => !l.isEmpty
  | .obj l => !l.isEmpty

/-- Python `a or b` on two optional JSON values (`None` is `none`). -/
def pyOr (a b : Option Json) : Option Json :=
  match a with
  | some v => if jTruthy v then some v else b
  | none => b

/-- `_extract_text_blocks` (lines 82-95): `None` and JSON null give "",
a string is returned as is, a list contributes the nonempty string `text`
fields of its dict elements whose `type` is `"text"`, joined by newlines;
anything else gives "". -/
def extractTextBlocks (content : Option Json) : List Char :=
  match content with
  | none => []
  | some .null => []
  | some (.str s) => s.toList
  | some (.arr blocks) =>
    List.intercalate ['\n'] (blocks.filterMap (fun b =>
      match b with
      | Json.obj bf =>
        match jGet bf "type", jGet bf "text" with
        | some (.str bt), some (.str t) =>
          if bt = "text" ∧ t ≠ "" then some t.toList else none
        | _, _ => none
      | _ => none))
  | some _ => []

/-- The `json.loads` oracle: a raw (stripped, utf-8 decoded) line to its
parse result; `none` models a raised parse error. -/
def JsonParse : Type := List Nat → Option Json

/-- One decoded chat record (the dicts appended to `extracted`,
lines 286-290). -/
structure Record where
  ts : Option Json
  role : String
  text : List Char

/-- The per-line body of `run_extract`'s decode loop (lines 267-290).
`ok none` is Python `continue` (the line is silently dropped); `ok (some r)`
appends a record; `error ()` is the uncaught `AttributeError` raised by
`obj.get("type")` when `json.loads` returned a non-dict value (the `try`
at line 268 only guards `json.loads` itself). -/
def decodeLine (p : JsonParse) (line : List Nat) : Except Unit (Option Record) :=
  match p line with
  | none => .ok none
  | some (Json.obj fields) =>
    match jGet fields "type" with
    | some (.str t) =>
      if t = "message" then
        match jGet fields "message" with
        | some (Json.obj mfields) =>
          match jGet mfields "role" with
          | some (.str role) =>
            if role = "user" ∨ role = "assistant" then
              let text := cleanText (extractTextBlocks (jGet mfields "content"))
              if isNoise text then .ok none
              else .ok (some ⟨pyOr (jGet fields "timestamp") (jGet mfields "timestamp"), role, text⟩)
            else .ok none
          | _ => .ok none
        | _ => .ok none
      else .ok none
    | _ => .ok none
  | some _ => .error ()

/-- The decode loop over all lines of one file, in order. -/
def extractRecords (p : JsonParse) : List (List Nat) → Except Unit (List Record)
  | [] => .ok []
  | l :: t =>
    match decodeLine p l with
    | .error e => .error e
    | .ok none => extractRecords p t
    | .ok (some x) =>
      match extractRecords p t with
      | .error e => .error e
      | .ok xs => .ok (x :: xs)

/-- Index of the last occurrence of byte `b` (`bytes.rfind`). -/
def rfindByte (b : Nat) : List Nat → Option Nat
  | [] => none
  | x :: t =>
    match rfindByte b t with
    | some i => some (i + 1)
    | none => if x = b then some 0 else none

/-- Split a byte list on newline bytes (the segments between the 10s). -/
def splitNl : List Nat → List (List Nat)
  | [] => [[]]
  | b :: rest =>
    if b = 10 then [] :: splitNl rest
    else
      match splitNl rest with
      | [] => [[b]]
      | l :: ls => (b :: l) :: ls

/-- Python byte-level whitespace for `str.strip` of a decoded line. -/
def isWsByte (b : Nat) : Bool :=
  b == 32 || b == 9 || b == 10 || b == 13 || b == 11 || b == 12

/-- `line.strip()` at the byte level. -/
def stripBytes (l : List Nat) : List Nat :=
  ((l.dropWhile isWsByte).reverse.dropWhile isWsByte).reverse

/-- `text.splitlines()` followed by per-line `strip()` and dropping empty
lines (lines 75-78).  The data is always newline-terminated at this point,
and the model splits on the newline byte; `\r` and other trailing
whitespace are removed by the strip, as in the source. -/
def splitLines (data : List Nat) : List (List Nat) :=
  ((splitNl data).map stripBytes).filter (fun l => !l.isEmpty)

/-- `_read_jsonl_lines` (lines 54-79): read at most `maxBytes` bytes of
`content` starting at `startOffset` (`end_offset = f.tell()` is
`startOffset` plus the number of bytes actually read); if nothing was read,
return no lines; if the chunk does not end in a newline, truncate it back to
its last newline, or — when it contains no newline at all — return no lines
with `end_offset = startOffset`; finally split into stripped nonempty
lines. -/
def readJsonlLines (content : List Nat) (startOffset maxBytes : Nat) :
    List (List Nat) × Nat :=
  let data := (content.drop startOffset).take maxBytes
  let endOffset := startOffset + data.length
  if data = [] then ([], endOffset)
  else if data.getLast? = some 10 then (splitLines data, endOffset)
  else
    match rfindByte 10 data with
    | none => ([], startOffset)
    | some i => (splitLines (data.take (i + 1)), startOffset + i + 1)

/-- One tracked file's cursor: the dict written at `files[key] = {...}`
(lines 192-200, 250-258, 294-302, 351-359).  `updatedAtMs` is not
modelled. -/
structure CursorEntry where
  agentId : String
  inode : Nat
  committed : Nat
  pending : Option Nat
  pendingBatch : Option String
  lastSize : Nat
deriving DecidableEq

/-- The persisted cursor store (`cursor.json`): its `files` mapping, as an
association list keyed by file path.  Timestamps are not modelled. -/
structure CursorStore where
  files : List (String × CursorEntry)
deriving DecidableEq

/-- First-match lookup in an association list (`dict.get`). -/
def lookupList {α : Type} : List (String × α) → String → Option α
  | [], _ => none
  | (k, v) :: t, key => if k = key then some v else lookupList t key

/-- Dict update: replace the value at an existing key in place, otherwise
append the new binding. -/
def setEntry {α : Type} : List (String × α) → String → α → List (String × α)
  | [], k, v => [(k, v)]
  | (k', v') :: t, k, v =>
    if k' = k then (k, v) :: t else (k', v') :: setEntry t k v

/-- Lines 237-246 of `run_extract`: the offset at which the pass starts
reading a file, from the stored entry (if any) and the file's current
inode and size.  A missing entry or a stored inode different from the
current one starts at the current size; a matching inode resumes from the
stored `committed`, reset to 0 when the file shrank below it. -/
def startOffsetFor (entry : Option CursorEntry) (inode size : Nat) : Nat :=
  match entry with
  | some e =>
    if e.inode = inode then
      if size < e.committed then 0 else e.committed
    else size
  | none => size

/-- Remove duplicates (the set comprehension at line 217). -/
def dedupStr : List String → List String
  | [] => []
  | x :: t => if x ∈ t then dedupStr t else x :: dedupStr t

/-- Code-point comparison of strings, as Python compares `str`. -/
def strLtList : List Char → List Char → Bool
  | [], [] => false
  | [], _ :: _ => true
  | _ :: _, [] => false
  | a :: as, b :: bs =>
    if a.toNat < b.toNat then true
    else if b.toNat < a.toNat then false
    else strLtList as bs

def strLeB (a b : String) : Bool := !(strLtList b.toList a.toList)

def insertSorted (x : String) : List String → List String
  | [] => [x]
  | y :: t => if strLeB x y then x :: y :: t else y :: insertSorted x t

/-- Python `sorted` on strings (ascending insertion sort). -/
def sortStrings (l : List String) : List String := l.foldr insertSorted []

/-- Lines 217-218 of `run_extract`:
`sorted({v.get("pendingBatch") for v in files.values() if v.get("pendingBatch")})`.
The set comprehension keeps only truthy values (non-`None`, nonempty), so
the re-filter `[b for b in pending_batches if b]` at line 218 is a no-op
and is not modelled separately. -/
def pendingBatchesOf (files : List (String × CursorEntry)) : List String :=
  sortStrings (dedupStr
    ((files.filterMap (fun kv => kv.2.pendingBatch)).filter (fun b => b ≠ "")))

/-- One session file visible to a pass: its agent id and path (from the
discovery collaborator `_list_session_files`), the stat values
(inode, and size = `content.length`), and the bytes on disk. -/
structure SessionFile where
  agentId : String
  path : String
  inode : Nat
  content : List Nat

/-- One element of `touched_files` (lines 306-313). -/
structure Touched where
  path : String
  agentId : String
  inode : Nat
  committed : Nat
  pending : Nat
  size : Nat
deriving DecidableEq

/-- The mutable state of `run_extract`'s per-file loop: the `files` mapping,
`per_agent_msgs`, `touched_files`, and (for stating read effects) the list
of `(path, startOffset, endOffset)` tail reads performed. -/
structure PassState where
  files : List (String × CursorEntry)
  perAgent : List (String × List Record)
  touched : List Touched
  reads : List (String × Nat × Nat)

/-- `per_agent_msgs.setdefault(agent_id, []).extend(extracted)`
(line 305). -/
def appendAgent (l : List (String × List Record)) (a : String) (ms : List Record) :
    List (String × List Record) :=
  match l with
  | [] => [(a, ms)]
  | (a', ms') :: t => if a' = a then (a', ms' ++ ms) :: t else (a', ms') :: appendAgent t a ms

/-- The body of `run_extract`'s per-file loop (lines 231-313): compute the
start offset, refresh the entry and skip when nothing is new, otherwise
tail-read; with no complete line, skip without advancing; with lines but no
usable records, advance `committed` to the read's end offset; with records,
stage them per agent and record the `(committed, end_offset)` candidate
range, leaving the stored entry untouched until batch creation. -/
def processFile (p : JsonParse) (maxBytes : Nat) (st : PassState) (sess : SessionFile) :
    Except Unit PassState :=
  let key := sess.path
  let inode := sess.inode
  let size := sess.content.length
  let entry := lookupList st.files key
  let committed := startOffsetFor entry inode size
  if size ≤ committed then
    .ok { st with files := setEntry st.files key ⟨sess.agentId, inode, committed, none, none, size⟩ }
  else
    let r := readJsonlLines sess.content committed maxBytes
    let st1 := { st with reads := st.reads ++ [(key, committed, r.2)] }
    if r.1.isEmpty then .ok st1
    else
      match extractRecords p r.1 with
      | .error e => .error e
      | .ok recs =>
        if recs.isEmpty then
          .ok { st1 with files := setEntry st1.files key ⟨sess.agentId, inode, r.2, none, none, size⟩ }
        else
          .ok { st1 with
                perAgent := appendAgent st1.perAgent sess.agentId recs,
                touched := st1.touched ++ [⟨key, sess.agentId, inode, committed, r.2, size⟩] }

/-- The per-file loop over all discovered session files, propagating the
uncaught exception of `processFile`. -/
def foldFiles (p : JsonParse) (maxBytes : Nat) :
    PassState → List SessionFile → Except Unit PassState
  | st, [] => .ok st
  | st, f :: rest =>
    match processFile p maxBytes st f with
    | .error e => .error e
    | .ok st2 => foldFiles p maxBytes st2 rest

/-- Python `msgs[-cap:]`.  Note the `-0` pitfall: for `cap = 0` the slice
`msgs[-0:]` is the whole list, not the empty one. -/
def tailSlice {α : Type} (msgs : List α) (cap : Nat) : List α :=
  if cap = 0 then msgs else msgs.drop (msgs.length - cap)

/-- The capping loop (lines 315-318): every agent whose staged list exceeds
the cap keeps only `msgs[-cap:]`. -/
def capAgents (perAgent : List (String × List Record)) (cap : Nat) :
    List (String × List Record) :=
  perAgent.map (fun av => if cap < av.2.length then (av.1, tailSlice av.2 cap) else av)

/-- One `{"agentId": ..., "messages": [...]}` group of the batch file. -/
structure AgentGroup where
  agentId : String
  messages : List Record

/-- The batch artifact (lines 333-344); `createdAtMs` is not modelled. -/
structure BatchObj where
  version : Nat
  agents : List AgentGroup
  touchedFiles : List Touched

/-- Batch construction: agent groups in sorted key order, with the (capped)
staged messages. -/
def mkBatch (perAgent : List (String × List Record)) (touched : List Touched) : BatchObj :=
  { version := 1
    agents := (sortStrings (perAgent.map (fun av => av.1))).map
      (fun a => ⟨a, (lookupList perAgent a).getD []⟩)
    touchedFiles := touched }

/-- The cursor entry written for a touched file when the batch is created
(lines 349-359). -/
def mkPendEntry (tf : Touched) (batchPath : String) : CursorEntry :=
  ⟨tf.agentId, tf.inode, tf.committed, some tf.pending, some batchPath, tf.size⟩

/-- The pending-offset write loop (lines 349-359). -/
def applyTouched (files : List (String × CursorEntry)) (touched : List Touched)
    (batchPath : String) : List (String × CursorEntry) :=
  touched.foldl (fun fs tf => setEntry fs tf.path (mkPendEntry tf batchPath)) files

/-- The shape of `run_extract`'s structured result: an outstanding batch
returned untouched, a no-op pass, or a newly created batch. -/
inductive ExtractResult where
  | pending (batchFiles : List String)
  | noop
  | created (batchFile : String)
deriving DecidableEq

/-- Everything a pass produces: the structured result, the cursor store as
persisted on disk after the pass (the pending path does not save, so there
the input store is returned), the batch artifact written (if any), and the
tail reads performed (for stating that a gated pass reads no bytes). -/
structure ExtractOut where
  result : ExtractResult
  store : CursorStore
  batch : Option (String × BatchObj)
  reads : List (String × Nat × Nat)

/-- Lines 315-369 of `run_extract`, after the per-file loop: cap per agent,
short-circuit to a no-op when nothing was staged, otherwise materialize the
batch and move every touched file's entry to the pending state. -/
def finishExtract (st : PassState) (cap : Nat) (batchPath : String) : ExtractOut :=
  let capped := capAgents st.perAgent cap
  if capped.isEmpty then
    ⟨.noop, ⟨st.files⟩, none, st.reads⟩
  else
    ⟨.created batchPath, ⟨applyTouched st.files st.touched batchPath⟩,
      some (batchPath, mkBatch capped st.touched), st.reads⟩

/-- `run_extract` (lines 211-369).  `batchPath` stands for the
time-derived `batches/batch-<id>.json` path.  The pending gate (lines
217-225) fires before any file is touched; it neither reads bytes nor
persists the store. -/
def runExtract (p : JsonParse) (store : CursorStore) (sessions : List SessionFile)
    (maxBytes cap : Nat) (batchPath : String) : Except Unit ExtractOut :=
  if pendingBatchesOf store.files = [] then
    match foldFiles p maxBytes ⟨store.files, [], [], []⟩ sessions with
    | .error e => .error e
    | .ok st => .ok (finishExtract st cap batchPath)
  else
    .ok ⟨.pending (pendingBatchesOf store.files), store, none, []⟩

/-- The externally visible filesystem effects of `commit_batch`, in
program order. -/
inductive CommitEvent where
  | saveStore
  | unlinkAttempt (path : String)
deriving DecidableEq

/-- The outcome of `commit_batch`: the persisted store, the
`committedFiles` count, the success flag (the function always returns
`"ok": True`), whether the artifact ended up deleted (deletion failure is
swallowed by the bare `except`), and the effect trace. -/
structure CommitOut where
  store : CursorStore
  committedFiles : Nat
  ok : Bool
  fileDeleted : Bool
  events : List CommitEvent

/-- The per-entry body of `commit_batch`'s loop (lines 378-389): entries
whose `pendingBatch` is the committed batch and whose `pending` is set move
`pending` into `committed` and clear both pending fields; all others are
left untouched. -/
def commitEntry (batchFile : String) (kv : String × CursorEntry) : String × CursorEntry :=
  if kv.2.pendingBatch = some batchFile then
    match kv.2.pending with
    | some pnd => (kv.1, { kv.2 with committed := pnd, pending := none, pendingBatch := none })
    | none => kv
  else kv

/-- `commit_batch` (lines 372-403).  `deleteOk` tells whether the
`batch_file.unlink()` call would succeed; either way the exception is
swallowed and the result reports success.  The store is saved (line 391)
before the unlink attempt (lines 392-395). -/
def commitBatch (store : CursorStore) (batchFile : String) (deleteOk : Bool) : CommitOut :=
  { store := ⟨store.files.map (commitEntry batchFile)⟩
    committedFiles := store.files.countP
      (fun kv => decide (kv.2.pendingBatch = some batchFile ∧ kv.2.pending ≠ none))
    ok := true
    fileDeleted := deleteOk
    events := [.saveStore, .unlinkAttempt batchFile] }

/-- The cursor store left on disk by one `run` invocation (used to iterate
extract passes); an aborted pass (uncaught exception) leaves the store
unchanged since `_save_cursor` is never reached. -/
def extractStep (p : JsonParse) (f : SessionFile) (maxBytes cap : Nat)
    (s : CursorStore) : CursorStore :=
  match runExtract p s [f] maxBytes cap "batch" with
  | .ok o => o.store
  | .error _ => s

/-- The committed offset stored for a path. -/
def committedAt (s : CursorStore) (path : String) : Option Nat :=
  (lookupList s.files path).map (fun e => e.committed)

/-! ### Concrete scenario used by witnesses and counterexamples -/

/-- A parsed session line of the recognized message shape with role `r`
and plain text `t`. -/
def msgJson (r t : String) : Json :=
  .obj [("type", .str "message"), ("message", .obj [("role", .str r), ("content", .str t)])]

/-- Parse oracle for the capping scenario: the file holds the two lines
`a` (bytes `[97]`) and `b` (bytes `[98]`), parsing to two user messages. -/
def capParse : JsonParse := fun bs =>
  if bs = [97] then some (msgJson "user" "ha")
  else if bs = [98] then some (msgJson "user" "hb") else none

/-- The capping scenario's session file: two newline-terminated lines. -/
def capFile : SessionFile := ⟨"ag", "p", 1, [97, 10, 98, 10]⟩

/-- The capping scenario's initial store (tracked from offset 0). -/
def capStore0 : CursorStore := ⟨[("p", ⟨"ag", 1, 0, none, none, 0⟩)]⟩

/-- Parse oracle for the exclusivity scenario: one line `a` parsing to one
user message. -/
def exParse : JsonParse := fun bs =>
  if bs = [97] then some (msgJson "user" "hi") else none

def exFile : SessionFile := ⟨"ag", "p", 1, [97, 10]⟩

def exStore0 : CursorStore := ⟨[("p", ⟨"ag", 1, 0, none, none, 0⟩)]⟩

/-- The full output of the exclusivity scenario's first (batch-creating)
extract pass. -/
def exOut : ExtractOut :=
  ⟨.created "B", ⟨[("p", ⟨"ag", 1, 0, some 2, some "B", 2⟩)]⟩,
    some ("B", ⟨1, [⟨"ag", [⟨none, "user", ['h', 'i']⟩]⟩], [⟨"p", "ag", 1, 0, 2, 2⟩]⟩),
    [("p", 0, 2)]⟩

/-! ### List helper lemmas -/

theorem getD_take {α : Type} (d : α) :
    ∀ (l : List α) (m i : Nat), i < m → (l.take m).getD i d = l.getD i d := by
  intro l
  induction l with
  | nil => intro m i _; simp
  | cons x t ih =>
    intro m i him
    cases m with
    | zero => omega
    | succ m =>
      cases i with
      | zero => simp [List.take]
      | succ i => simpa [List.take] using ih m i (by omega)

theorem getD_drop {α : Type} (d : α) :
    ∀ (l : List α) (s i : Nat), (l.drop s).getD i d = l.getD (s + i) d := by
  intro l
  induction l with
  | nil => intro s i; simp
  | cons x t ih =>
    intro s i
    cases s with
    | zero => simp
    | succ s =>
      have h : s + 1 + i = (s + i) + 1 := by omega
      rw [h]
      simp only [List.drop, List.getD_cons_succ]
      exact ih s i

theorem getD_mem {α : Type} (d : α) :
    ∀ (l : List α) (i : Nat), i < l.length → l.getD i d ∈ l := by
  intro l
  induction l with
  | nil => intro i h; simp at h
  | cons x t ih =>
    intro i h
    cases i with
    | zero => simp
    | succ i => exact List.mem_cons_of_mem _ (ih i (by simpa using h))

theorem map_id_of_mem {α : Type} {l : List α} {f : α → α}
    (h : ∀ a ∈ l, f a = a) : l.map f = l := by
  induction l with
  | nil => rfl
  | cons x t ih =>
    simp only [List.map_cons, h x (by simp)]
    rw [ih (fun a ha => h a (List.mem_cons_of_mem _ ha))]

theorem countP_congrOn {α : Type} {l : List α} {p q : α → Bool}
    (h : ∀ a ∈ l, p a = q a) : l.countP p = l.countP q := by
  induction l with
  | nil => rfl
  | cons x t ih =>
    rw [List.countP_cons, List.countP_cons, h x (by simp),
      ih (fun a ha => h a (List.mem_cons_of_mem _ ha))]

/-! ### `rfindByte` lemmas -/

theorem rfindByte_none_of_not_mem {b : Nat} :
    ∀ {l : List Nat}, b ∉ l → rfindByte b l = none := by
  intro l
  induction l with
  | nil => intro _; rfl
  | cons x t ih =>
    intro h
    have hx : x ≠ b := fun hxb => h (by simp [hxb])
    have ht : b ∉ t := fun hbt => h (List.mem_cons_of_mem _ hbt)
    simp [rfindByte, ih ht, hx]

theorem not_mem_of_rfindByte_none {b : Nat} :
    ∀ {l : List Nat}, rfindByte b l = none → b ∉ l := by
  intro l
  induction l with
  | nil => intro _; simp
  | cons x t ih =>
    intro h
    unfold rfindByte at h
    cases ht : rfindByte b t with
    | some i => rw [ht] at h; exact absurd h (by simp)
    | none =>
      rw [ht] at h
      by_cases hx : x = b
      · rw [if_pos hx] at h; exact absurd h (by simp)
      · intro hmem
        rcases List.mem_cons.1 hmem with h1 | h2
        · exact hx h1.symm
        · exact ih ht h2

theorem rfindByte_spec {b : Nat} :
    ∀ {l : List Nat} {i : Nat}, rfindByte b l = some i →
      i < l.length ∧ l.getD i 0 = b ∧
        ∀ j, i < j → j < l.length → l.getD j 0 ≠ b := by
  intro l
  induction l with
  | nil => intro i h; simp [rfindByte] at h
  | cons x t ih =>
    intro i h
    unfold rfindByte at h
    cases ht : rfindByte b t with
    | some k =>
      rw [ht] at h
      have hik : i = k + 1 := by simpa using h.symm
      obtain ⟨hk1, hk2, hk3⟩ := ih ht
      subst hik
      refine ⟨by simpa using Nat.succ_lt_succ hk1, by simpa using hk2, ?_⟩
      intro j hj hjl
      cases j with
      | zero => omega
      | succ j => simpa using hk3 j (by omega) (by simpa using hjl)
    | none =>
      rw [ht] at h
      by_cases hx : x = b
      · rw [if_pos hx] at h
        have hi0 : i = 0 := by simpa using h.symm
        subst hi0
        refine ⟨by simp, by simpa using hx, ?_⟩
        intro j hj hjl
        cases j with
        | zero => omega
        | succ j =>
          intro hcontra
          exact not_mem_of_rfindByte_none ht
            (hcontra ▸ getD_mem 0 t j (by simpa using hjl))
      · rw [if_neg hx] at h; exact absurd h (by simp)

/-! ### `readJsonlLines` lemmas -/

theorem getLast?_getD {l : List Nat} (h : l.getLast? = some 10) :
    l.getD (l.length - 1) 0 = 10 := by
  rw [List.getD_eq_getElem?_getD, ← List.getLast?_eq_getElem?, h]
  rfl

theorem readJsonlLines_progress {c : List Nat} {s m : Nat}
    (h : (readJsonlLines c s m).1 ≠ []) : s < (readJsonlLines c s m).2 := by
  unfold readJsonlLines at *
  by_cases h0 : (c.drop s).take m = []
  · simp [h0] at h
  · rw [if_neg h0] at *
    by_cases h1 : ((c.drop s).take m).getLast? = some 10
    · rw [if_pos h1]
      have hlen : 0 < ((c.drop s).take m).length := List.length_pos.2 h0
      show s < s + ((c.drop s).take m).length
      omega
    · rw [if_neg h1] at *
      cases hr : rfindByte 10 ((c.drop s).take m) with
      | none => rw [hr] at h; simp at h
      | some i =>
        show s < s + i + 1
        omega

theorem length_take_drop_le {c : List Nat} (s m : Nat) :
    ((c.drop s).take m).length ≤ c.length - s := by
  rw [List.length_take, List.length_drop]
  omega

theorem readJsonlLines_le {c : List Nat} {s m : Nat} (hs : s ≤ c.length) :
    (readJsonlLines c s m).2 ≤ c.length := by
  unfold readJsonlLines
  have hdl := @length_take_drop_le c s m
  by_cases h0 : (c.drop s).take m = []
  · rw [if_pos h0]
    show s + ((c.drop s).take m).length ≤ c.length
    omega
  · rw [if_neg h0]
    by_cases h1 : ((c.drop s).take m).getLast? = some 10
    · rw [if_pos h1]
      show s + ((c.drop s).take m).length ≤ c.length
      omega
    · rw [if_neg h1]
      cases hr : rfindByte 10 ((c.drop s).take m) with
      | none => exact hs
      | some i =>
        obtain ⟨hi, _, _⟩ := rfindByte_spec hr
        show s + i + 1 ≤ c.length
        omega

theorem getD_take_drop {c : List Nat} {s m i : Nat}
    (h : i < ((c.drop s).take m).length) :
    ((c.drop s).take m).getD i 0 = c.getD (s + i) 0 := by
  have him : i < m := by
    have h2 : ((c.drop s).take m).length = min m (c.drop s).length := List.length_take _ _
    omega
  rw [getD_take 0 _ m i him, getD_drop]

theorem readJsonlLines_end_nl {c : List Nat} {s m : Nat}
    (h : (readJsonlLines c s m).1 ≠ []) :
    c.getD ((readJsonlLines c s m).2 - 1) 0 = 10 := by
  unfold readJsonlLines at *
  by_cases h0 : (c.drop s).take m = []
  · simp [h0] at h
  · rw [if_neg h0] at *
    by_cases h1 : ((c.drop s).take m).getLast? = some 10
    · rw [if_pos h1]
      have hlen : 0 < ((c.drop s).take m).length := List.length_pos.2 h0
      have hd := getLast?_getD h1
      rw [getD_take_drop (by omega)] at hd
      show c.getD (s + ((c.drop s).take m).length - 1) 0 = 10
      have heq : s + ((c.drop s).take m).length - 1 =
          s + (((c.drop s).take m).length - 1) := by omega
      rw [heq]
      exact hd
    · rw [if_neg h1] at *
      cases hr : rfindByte 10 ((c.drop s).take m) with
      | none => rw [hr] at h; simp at h
      | some i =>
        obtain ⟨hi, hget, _⟩ := rfindByte_spec hr
        rw [getD_take_drop hi] at hget
        show c.getD (s + i + 1 - 1) 0 = 10
        simpa using hget

/-! ### Sorting, dedup and `pendingBatchesOf` lemmas -/

theorem insertSorted_ne_nil (x : String) (l : List String) :
    insertSorted x l ≠ [] := by
  cases l with
  | nil => simp [insertSorted]
  | cons y t =>
    unfold insertSorted
    by_cases h : strLeB x y = true
    · simp [h]
    · simp [h]

theorem sortStrings_eq_nil {l : List String} :
    sortStrings l = [] ↔ l = [] := by
  constructor
  · intro h
    cases l with
    | nil => rfl
    | cons x t => exact absurd h (insertSorted_ne_nil x (sortStrings t))
  · intro h; subst h; rfl

theorem sortStrings_singleton (x : String) : sortStrings [x] = [x] := rfl

theorem dedupStr_eq_nil : ∀ {l : List String}, dedupStr l = [] ↔ l = [] := by
  intro l
  induction l with
  | nil => simp [dedupStr]
  | cons x t ih =>
    unfold dedupStr
    by_cases h : x ∈ t
    · rw [if_pos h]
      simp only [ih]
      constructor
      · intro ht; subst ht; simp at h
      · intro hc; exact absurd hc (by simp)
    · rw [if_neg h]; simp

theorem dedupStr_all_eq {b : String} :
    ∀ {l : List String}, l ≠ [] → (∀ x ∈ l, x = b) → dedupStr l = [b] := by
  intro l
  induction l with
  | nil => intro h _; exact absurd rfl h
  | cons x t ih =>
    intro _ hall
    unfold dedupStr
    by_cases h : x ∈ t
    · rw [if_pos h]
      exact ih (fun ht => by subst ht; simp at h)
        (fun y hy => hall y (List.mem_cons_of_mem _ hy))
    · rw [if_neg h]
      have hx : x = b := hall x (by simp)
      cases t with
      | nil => simp [dedupStr, hx]
      | cons y t' =>
        exfalso
        have hy : y = b := hall y (by simp)
        exact h (by rw [hx, ← hy]; simp)

theorem pendingBatchesOf_eq_nil {files : List (String × CursorEntry)} :
    pendingBatchesOf files = [] ↔
      ∀ kv ∈ files, ∀ b, kv.2.pendingBatch = some b → b = "" := by
  unfold pendingBatchesOf
  rw [sortStrings_eq_nil, dedupStr_eq_nil, List.filter_eq_nil_iff]
  constructor
  · intro h kv hkv b hb
    by_contra hne
    exact (h b (List.mem_filterMap.2 ⟨kv, hkv, hb⟩)) (by simpa using hne)
  · intro h b hb
    obtain ⟨kv, hkv, hpb⟩ := List.mem_filterMap.1 hb
    simpa using h kv hkv b hpb

theorem pendingBatchesOf_single {files : List (String × CursorEntry)} {bp : String}
    (hbp : bp ≠ "")
    (hall : ∀ kv ∈ files, ∀ b, kv.2.pendingBatch = some b → b = "" ∨ b = bp)
    (hex : ∃ kv ∈ files, kv.2.pendingBatch = some bp) :
    pendingBatchesOf files = [bp] := by
  unfold pendingBatchesOf
  have hfil : ∀ b ∈ (files.filterMap (fun kv => kv.2.pendingBatch)).filter
      (fun b => b ≠ ""), b = bp := by
    intro b hb
    rw [List.mem_filter] at hb
    obtain ⟨hbm, hbne⟩ := hb
    obtain ⟨kv, hkv, hpb⟩ := List.mem_filterMap.1 hbm
    rcases hall kv hkv b hpb with h1 | h1
    · exact absurd (by simpa using h1 : b = "") (by simpa using hbne)
    · exact h1
  have hne : (files.filterMap (fun kv => kv.2.pendingBatch)).filter
      (fun b => b ≠ "") ≠ [] := by
    obtain ⟨kv, hkv, hpb⟩ := hex
    intro hnil
    have : bp ∈ (files.filterMap (fun kv => kv.2.pendingBatch)).filter
        (fun b => b ≠ "") := by
      rw [List.mem_filter]
      exact ⟨List.mem_filterMap.2 ⟨kv, hkv, hpb⟩, by simpa using hbp⟩
    rw [hnil] at this
    simp at this
  rw [dedupStr_all_eq hne hfil, sortStrings_singleton]

/-! ### `setEntry`, `applyTouched`, `processFile`, `foldFiles` lemmas -/

theorem mem_setEntry {α : Type} {kv : String × α} :
    ∀ {l : List (String × α)} {k : String} {v : α},
      kv ∈ setEntry l k v → kv = (k, v) ∨ kv ∈ l := by
  intro l
  induction l with
  | nil => intro k v h; simpa [setEntry] using h
  | cons x t ih =>
    intro k v h
    unfold setEntry at h
    by_cases hk : x.1 = k
    · rw [if_pos hk] at h
      rcases List.mem_cons.1 h with h1 | h1
      · exact Or.inl h1
      · exact Or.inr (List.mem_cons_of_mem _ h1)
    · rw [if_neg hk] at h
      rcases List.mem_cons.1 h with h1 | h1
      · exact Or.inr (h1 ▸ List.mem_cons_self _ _)
      · rcases ih h1 with h2 | h2
        · exact Or.inl h2
        · exact Or.inr (List.mem_cons_of_mem _ h2)

theorem self_mem_setEntry {α : Type} :
    ∀ (l : List (String × α)) (k : String) (v : α), (k, v) ∈ setEntry l k v := by
  intro l
  induction l with
  | nil => intro k v; simp [setEntry]
  | cons x t ih =>
    intro k v
    unfold setEntry
    by_cases hk : x.1 = k
    · rw [if_pos hk]; simp
    · rw [if_neg hk]; exact List.mem_cons_of_mem _ (ih k v)

theorem mem_applyTouched {kv : String × CursorEntry} {bp : String} :
    ∀ {ts : List Touched} {files : List (String × CursorEntry)},
      kv ∈ applyTouched files ts bp →
        kv ∈ files ∨ kv.2.pendingBatch = some bp := by
  intro ts
  induction ts with
  | nil => intro files h; exact Or.inl h
  | cons tf rest ih =>
    intro files h
    rcases ih (by simpa [applyTouched] using h) with h1 | h1
    · rcases mem_setEntry h1 with h2 | h2
      · right; rw [h2]; rfl
      · exact Or.inl h2
    · exact Or.inr h1

theorem applyTouched_exists {bp : String} :
    ∀ {ts : List Touched} (files : List (String × CursorEntry)), ts ≠ [] →
      ∃ kv ∈ applyTouched files ts bp, kv.2.pendingBatch = some bp := by
  intro ts
  induction ts with
  | nil => intro files h; exact absurd rfl h
  | cons tf rest ih =>
    intro files _
    cases hrest : rest with
    | nil =>
      refine ⟨(tf.path, mkPendEntry tf bp), ?_, rfl⟩
      simp only [applyTouched, hrest, List.foldl_cons, List.foldl_nil]
      exact self_mem_setEntry _ _ _
    | cons tf2 rest2 =>
      obtain ⟨kv, hkv, hpb⟩ := ih (setEntry files tf.path (mkPendEntry tf bp))
        (by simp [hrest])
      exact ⟨kv, by simpa [applyTouched, hrest] using hkv, hpb⟩

theorem processFile_files {p : JsonParse} {m : Nat} {st st' : PassState}
    {f : SessionFile} (h : processFile p m st f = .ok st') :
    ∀ kv ∈ st'.files, kv ∈ st.files ∨ kv.2.pendingBatch = none := by
  unfold processFile at h
  by_cases h0 : f.content.length ≤
      startOffsetFor (lookupList st.files f.path) f.inode f.content.length
  · rw [if_pos h0] at h
    cases h
    intro kv hkv
    rcases mem_setEntry hkv with h1 | h1
    · right; rw [h1]
    · exact Or.inl h1
  · rw [if_neg h0] at h
    by_cases h1 : (readJsonlLines f.content
        (startOffsetFor (lookupList st.files f.path) f.inode f.content.length) m).1.isEmpty
    · rw [if_pos h1] at h
      cases h
      intro kv hkv
      exact Or.inl hkv
    · rw [if_neg h1] at h
      cases hrec : extractRecords p (readJsonlLines f.content
          (startOffsetFor (lookupList st.files f.path) f.inode f.content.length) m).1 with
      | error e => rw [hrec] at h; exact absurd h (by simp)
      | ok recs =>
        rw [hrec] at h
        dsimp only at h
        by_cases h2 : recs.isEmpty
        · rw [if_pos h2] at h
          cases h
          intro kv hkv
          rcases mem_setEntry hkv with h3 | h3
          · right; rw [h3]
          · exact Or.inl h3
        · rw [if_neg h2] at h
          cases h
          intro kv hkv
          exact Or.inl hkv

theorem processFile_touched {p : JsonParse} {m : Nat} {st st' : PassState}
    {f : SessionFile} (h : processFile p m st f = .ok st')
    (hinv : st.touched = [] → st.perAgent = []) :
    st'.touched = [] → st'.perAgent = [] := by
  unfold processFile at h
  by_cases h0 : f.content.length ≤
      startOffsetFor (lookupList st.files f.path) f.inode f.content.length
  · rw [if_pos h0] at h; cases h; exact hinv
  · rw [if_neg h0] at h
    by_cases h1 : (readJsonlLines f.content
        (startOffsetFor (lookupList st.files f.path) f.inode f.content.length) m).1.isEmpty
    · rw [if_pos h1] at h; cases h; exact hinv
    · rw [if_neg h1] at h
      cases hrec : extractRecords p (readJsonlLines f.content
          (startOffsetFor (lookupList st.files f.path) f.inode f.content.length) m).1 with
      | error e => rw [hrec] at h; exact absurd h (by simp)
      | ok recs =>
        rw [hrec] at h
        dsimp only at h
        by_cases h2 : recs.isEmpty
        · rw [if_pos h2] at h; cases h; exact hinv
        · rw [if_neg h2] at h
          cases h
          intro hc
          exact absurd hc (by simp)

theorem foldFiles_files {p : JsonParse} {m : Nat} :
    ∀ {ss : List SessionFile} {st st' : PassState},
      foldFiles p m st ss = .ok st' →
      ∀ kv ∈ st'.files,
        (∀ b, kv.2.pendingBatch = some b → b = "") ∨ kv ∈ st.files := by
  intro ss
  induction ss with
  | nil =>
    intro st st' h kv hkv
    cases h
    exact Or.inr hkv
  | cons f rest ih =>
    intro st st' h kv hkv
    unfold foldFiles at h
    cases hp : processFile p m st f with
    | error e => rw [hp] at h; exact absurd h (by simp)
    | ok st2 =>
      rw [hp] at h
      rcases ih h kv hkv with h1 | h1
      · exact Or.inl h1
      · rcases processFile_files hp kv h1 with h2 | h2
        · exact Or.inr h2
        · exact Or.inl (fun b hb => by rw [h2] at hb; cases hb)

theorem foldFiles_touched {p : JsonParse} {m : Nat} :
    ∀ {ss : List SessionFile} {st st' : PassState},
      foldFiles p m st ss = .ok st' →
      (st.touched = [] → st.perAgent = []) →
      (st'.touched = [] → st'.perAgent = []) := by
  intro ss
  induction ss with
  | nil => intro st st' h hinv; cases h; exact hinv
  | cons f rest ih =>
    intro st st' h hinv
    unfold foldFiles at h
    cases hp : processFile p m st f with
    | error e => rw [hp] at h; exact absurd h (by simp)
    | ok st2 =>
      rw [hp] at h
      exact ih h (processFile_touched hp hinv)

/-! ### `runExtract` inversion lemmas -/

theorem runExtract_gate {p : JsonParse} {store : CursorStore}
    {sessions : List SessionFile} {m cap : Nat} {bp : String}
    (h : pendingBatchesOf store.files ≠ []) :
    runExtract p store sessions m cap bp =
      .ok ⟨.pending (pendingBatchesOf store.files), store, none, []⟩ := by
  unfold runExtract
  rw [if_neg h]

theorem runExtract_created {p : JsonParse} {store : CursorStore}
    {sessions : List SessionFile} {m cap : Nat} {bp bf : String} {out : ExtractOut}
    (hbp : bp ≠ "")
    (h : runExtract p store sessions m cap bp = .ok out)
    (hres : out.result = .created bf) :
    bf = bp ∧ pendingBatchesOf out.store.files = [bp] := by
  unfold runExtract at h
  by_cases hg : pendingBatchesOf store.files = []
  · rw [if_pos hg] at h
    cases hfold : foldFiles p m ⟨store.files, [], [], []⟩ sessions with
    | error e => rw [hfold] at h; exact absurd h (by simp)
    | ok st =>
      rw [hfold] at h
      have hout : finishExtract st cap bp = out := by
        cases h; rfl
      unfold finishExtract at hout
      by_cases hcap : (capAgents st.perAgent cap).isEmpty
      · rw [if_pos hcap] at hout
        rw [← hout] at hres
        exact absurd hres (by simp)
      · rw [if_neg hcap] at hout
        rw [← hout] at hres ⊢
        have hbf : bf = bp := by
          simpa using hres.symm
        refine ⟨hbf, ?_⟩
        have hpa : st.perAgent ≠ [] := by
          intro hnil
          rw [hnil] at hcap
          exact hcap (by simp [capAgents])
        have htch : st.touched ≠ [] := by
          intro hnil
          exact hpa (foldFiles_touched hfold (fun _ => rfl) hnil)
        have hallQ : ∀ kv ∈ st.files, ∀ b, kv.2.pendingBatch = some b → b = "" := by
          intro kv hkv
          rcases foldFiles_files hfold kv hkv with h1 | h1
          · exact h1
          · exact pendingBatchesOf_eq_nil.1 hg kv h1
        apply pendingBatchesOf_single hbp
        · intro kv hkv b hb
          rcases mem_applyTouched hkv with h1 | h1
          · exact Or.inl (hallQ kv h1 b hb)
          · right
            rw [h1] at hb
            simpa using hb.symm
        · exact applyTouched_exists st.files htch
  · rw [if_neg hg] at h
    have hout : out = ⟨.pending (pendingBatchesOf store.files), store, none, []⟩ := by
      cases h; rfl
    rw [hout] at hres
    exact absurd hres (by simp)

/-! ### Decoder and commit helper lemmas -/

theorem extractRecords_all_none {p : JsonParse}
    (hp : ∀ l, decodeLine p l = .ok none) :
    ∀ ls, extractRecords p ls = .ok [] := by
  intro ls
  induction ls with
  | nil => rfl
  | cons l t ih =>
    unfold extractRecords
    rw [hp l]
    exact ih

theorem commitEntry_id_of_no_match {bf : String} {kv : String × CursorEntry}
    (h : ¬(kv.2.pendingBatch = some bf ∧ kv.2.pending ≠ none)) :
    commitEntry bf kv = kv := by
  unfold commitEntry
  by_cases h1 : kv.2.pendingBatch = some bf
  · rw [if_pos h1]
    cases hp : kv.2.pending with
    | some p => exact absurd ⟨h1, by simp [hp]⟩ h
    | none => rfl
  · rw [if_neg h1]

theorem commitEntry_no_rematch (bf : String) (kv : String × CursorEntry) :
    ¬((commitEntry bf kv).2.pendingBatch = some bf ∧
      (commitEntry bf kv).2.pending ≠ none) := by
  unfold commitEntry
  by_cases h : kv.2.pendingBatch = some bf
  · rw [if_pos h]
    cases hp : kv.2.pending with
    | some p => simp
    | none => simp [h, hp]
  · rw [if_neg h]
    simp [h]

/-! ### Claim theorems -/

/-- C7: the extract start offset is computed as: no stored cursor → start at
the current size (skip backlog); stored cursor with matching identity and
current size at least `committed` → resume at `committed`; stored cursor
with matching identity and current size below `committed` (in-place
truncation) → restart at 0. -/
theorem start_offset_cases (e : CursorEntry) (inode size : Nat) :
    startOffsetFor none inode size = size
    ∧ (e.inode = inode → e.committed ≤ size →
        startOffsetFor (some e) inode size = e.committed)
    ∧ (e.inode = inode → size < e.committed →
        startOffsetFor (some e) inode size = 0) := by
  refine ⟨rfl, ?_, ?_⟩
  · intro h1 h2
    show (if e.inode = inode then if size < e.committed then 0 else e.committed else size) =
      e.committed
    rw [if_pos h1, if_neg (by omega)]
  · intro h1 h2
    show (if e.inode = inode then if size < e.committed then 0 else e.committed else size) = 0
    rw [if_pos h1, if_pos h2]

theorem start_offset_cases_witness :
    startOffsetFor none 7 42 = 42
    ∧ startOffsetFor (some ⟨"a", 7, 10, none, none, 42⟩) 7 42 = 10
    ∧ startOffsetFor (some ⟨"a", 7, 50, none, none, 42⟩) 7 42 = 0 :=
  ⟨(start_offset_cases ⟨"a", 7, 10, none, none, 42⟩ 7 42).1,
   (start_offset_cases ⟨"a", 7, 10, none, none, 42⟩ 7 42).2.1 rfl (by decide),
   (start_offset_cases ⟨"a", 7, 50, none, none, 42⟩ 7 42).2.2 rfl (by decide)⟩

/-- C1 counterexample: a stored cursor is present (committed = 1) but its
inode (1) differs from the file's current inode (2); the claim says the next
pass starts reading at offset 0, but the code computes start offset
2 = current size, and the pass therefore reads nothing at all
(`reads = []`) — not from offset 0, and the stored committed offset becomes
the current size. -/
theorem rotation_starts_at_size_cex :
    startOffsetFor (some ⟨"ag", 1, 1, none, none, 2⟩) 2 2 = 2
    ∧ (2 : Nat) ≠ 0
    ∧ runExtract (fun _ => none) ⟨[("p", ⟨"ag", 1, 1, none, none, 2⟩)]⟩
        [⟨"ag", "p", 2, [120, 10]⟩] 100 30 "B" =
      Except.ok ⟨.noop, ⟨[("p", ⟨"ag", 2, 2, none, none, 2⟩)]⟩, none, []⟩ :=
  ⟨rfl, by decide, rfl⟩

/-- C1 (amended): for every watched path whose stored FileCursor is present
but whose stored identity (inode) differs from the file's current identity,
the next extract pass treats the path as newly discovered and starts at the
file's current size (end of file), not at the old committed value. -/
theorem rotated_file_starts_at_current_size (e : CursorEntry) (inode size : Nat)
    (h : e.inode ≠ inode) : startOffsetFor (some e) inode size = size := by
  show (if e.inode = inode then if size < e.committed then 0 else e.committed else size) = size
  rw [if_neg h]

theorem rotated_file_starts_at_current_size_witness :
    startOffsetFor (some ⟨"ag", 1, 5, none, none, 9⟩) 2 8 = 8 :=
  rotated_file_starts_at_current_size ⟨"ag", 1, 5, none, none, 9⟩ 2 8 (by decide)

/-- C5: `commit(batchId)` moves `pending` into `committed` and clears both
pending fields for exactly the FileCursors whose `pendingBatchId` is the
given batch id (others are untouched), reports the count of files so
advanced, saves the store before the unlink attempt, and succeeds whether or
not the artifact deletion succeeds.  The well-formedness hypothesis says
every cursor naming this batch has a pending offset, which holds for every
store the program itself writes. -/
theorem commit_advances_matching (store : CursorStore) (bf : String) (d : Bool)
    (hwf : ∀ kv ∈ store.files, kv.2.pendingBatch = some bf → kv.2.pending ≠ none) :
    (∀ kv ∈ store.files,
      (∀ pnd, kv.2.pendingBatch = some bf → kv.2.pending = some pnd →
        (kv.1, { kv.2 with committed := pnd, pending := none, pendingBatch := none })
          ∈ (commitBatch store bf d).store.files)
      ∧ (kv.2.pendingBatch ≠ some bf → kv ∈ (commitBatch store bf d).store.files))
    ∧ (commitBatch store bf d).committedFiles =
        store.files.countP (fun kv => decide (kv.2.pendingBatch = some bf))
    ∧ (commitBatch store bf d).events =
        [CommitEvent.saveStore, CommitEvent.unlinkAttempt bf]
    ∧ (commitBatch store bf d).ok = true
    ∧ (commitBatch store bf d).fileDeleted = d := by
  refine ⟨?_, ?_, rfl, rfl, rfl⟩
  · intro kv hkv
    constructor
    · intro pnd hpb hpnd
      have himg : commitEntry bf kv =
          (kv.1, { kv.2 with committed := pnd, pending := none, pendingBatch := none }) := by
        unfold commitEntry
        rw [if_pos hpb, hpnd]
      have := List.mem_map_of_mem (commitEntry bf) hkv
      rw [himg] at this
      exact this
    · intro hne
      have hid : commitEntry bf kv = kv := commitEntry_id_of_no_match (by simp [hne])
      have := List.mem_map_of_mem (commitEntry bf) hkv
      rw [hid] at this
      exact this
  · apply countP_congrOn
    intro kv hkv
    by_cases hpb : kv.2.pendingBatch = some bf
    · simp [hpb, hwf kv hkv hpb]
    · simp [hpb]

theorem commit_advances_matching_witness :
    ("p", (⟨"a", 1, 4, none, none, 4⟩ : CursorEntry)) ∈
      (commitBatch ⟨[("p", ⟨"a", 1, 0, some 4, some "B", 4⟩), ("q", ⟨"b", 2, 7, none, none, 7⟩)]⟩
        "B" false).store.files
    ∧ ("q", (⟨"b", 2, 7, none, none, 7⟩ : CursorEntry)) ∈
      (commitBatch ⟨[("p", ⟨"a", 1, 0, some 4, some "B", 4⟩), ("q", ⟨"b", 2, 7, none, none, 7⟩)]⟩
        "B" false).store.files
    ∧ (commitBatch ⟨[("p", ⟨"a", 1, 0, some 4, some "B", 4⟩), ("q", ⟨"b", 2, 7, none, none, 7⟩)]⟩
        "B" false).committedFiles = 1
    ∧ (commitBatch ⟨[("p", ⟨"a", 1, 0, some 4, some "B", 4⟩), ("q", ⟨"b", 2, 7, none, none, 7⟩)]⟩
        "B" false).ok = true := by
  have h := commit_advances_matching
    ⟨[("p", ⟨"a", 1, 0, some 4, some "B", 4⟩), ("q", ⟨"b", 2, 7, none, none, 7⟩)]⟩
    "B" false (by decide)
  refine ⟨?_, ?_, ?_, h.2.2.2.1⟩
  · exact (h.1 ("p", ⟨"a", 1, 0, some 4, some "B", 4⟩) (by decide)).1 4 rfl rfl
  · exact (h.1 ("q", ⟨"b", 2, 7, none, none, 7⟩) (by decide)).2 (by decide)
  · exact h.2.1.trans (by decide)

/-- C6: committing an unrecognized or already-committed batch id is a no-op
that reports zero files advanced and still succeeds; in particular a second
commit of the same batch id reports zero files advanced, leaves the store
unchanged, and succeeds, whatever the first commit did. -/
theorem commit_idempotent_noop (store : CursorStore) (bf : String) (d d2 : Bool) :
    ((∀ kv ∈ store.files, kv.2.pendingBatch ≠ some bf) →
      (commitBatch store bf d).committedFiles = 0
      ∧ (commitBatch store bf d).store = store
      ∧ (commitBatch store bf d).ok = true)
    ∧ (commitBatch (commitBatch store bf d).store bf d2).committedFiles = 0
    ∧ (commitBatch (commitBatch store bf d).store bf d2).store =
        (commitBatch store bf d).store
    ∧ (commitBatch (commitBatch store bf d).store bf d2).ok = true := by
  refine ⟨?_, ?_, ?_, rfl⟩
  · intro h
    refine ⟨List.countP_eq_zero.2 (fun kv hkv => by simp [h kv hkv]), ?_, rfl⟩
    show CursorStore.mk (store.files.map (commitEntry bf)) = store
    rw [map_id_of_mem (fun kv hkv => commitEntry_id_of_no_match (by simp [h kv hkv]))]
  · apply List.countP_eq_zero.2
    intro kv hkv
    obtain ⟨kv0, _, hkv0⟩ := List.mem_map.1 hkv
    rw [← hkv0]
    simpa using commitEntry_no_rematch bf kv0
  · show CursorStore.mk ((store.files.map (commitEntry bf)).map (commitEntry bf)) =
      CursorStore.mk (store.files.map (commitEntry bf))
    rw [map_id_of_mem]
    intro kv hkv
    obtain ⟨kv0, _, hkv0⟩ := List.mem_map.1 hkv
    rw [← hkv0]
    exact commitEntry_id_of_no_match (commitEntry_no_rematch bf kv0)

theorem commit_idempotent_noop_witness :
    (commitBatch ⟨[("p", ⟨"a", 1, 3, none, none, 3⟩)]⟩ "Z" true).committedFiles = 0
    ∧ (commitBatch ⟨[("p", ⟨"a", 1, 3, none, none, 3⟩)]⟩ "Z" true).store =
        ⟨[("p", ⟨"a", 1, 3, none, none, 3⟩)]⟩
    ∧ (commitBatch (commitBatch ⟨[("p", ⟨"a", 1, 0, some 4, some "B", 4⟩)]⟩ "B" true).store
        "B" true).committedFiles = 0
    ∧ (commitBatch (commitBatch ⟨[("p", ⟨"a", 1, 0, some 4, some "B", 4⟩)]⟩ "B" true).store
        "B" true).ok = true := by
  have h1 := (commit_idempotent_noop ⟨[("p", ⟨"a", 1, 3, none, none, 3⟩)]⟩ "Z" true true).1
    (by decide)
  have h2 := commit_idempotent_noop ⟨[("p", ⟨"a", 1, 0, some 4, some "B", 4⟩)]⟩ "B" true true
  exact ⟨h1.1, h1.2.1, h2.2.1, h2.2.2.2⟩

/-- C10: `commit_batch` always attempts to delete the file at the given
batch path — even when zero FileCursors reference that batch id — and in
that case reports zero files advanced and success with the store unchanged,
while still removing the file if deletion is possible
(`fileDeleted = deleteOk`). -/
theorem commit_attempts_delete_unmatched (store : CursorStore) (bf : String) (d : Bool)
    (h : ∀ kv ∈ store.files, kv.2.pendingBatch ≠ some bf) :
    commitBatch store bf d =
      ⟨store, 0, true, d, [CommitEvent.saveStore, CommitEvent.unlinkAttempt bf]⟩ := by
  unfold commitBatch
  have h1 : store.files.map (commitEntry bf) = store.files :=
    map_id_of_mem (fun kv hkv => commitEntry_id_of_no_match (by simp [h kv hkv]))
  have h2 : store.files.countP
      (fun kv => decide (kv.2.pendingBatch = some bf ∧ kv.2.pending ≠ none)) = 0 :=
    List.countP_eq_zero.2 (fun kv hkv => by simp [h kv hkv])
  rw [h1, h2]

theorem commit_attempts_delete_unmatched_witness :
    commitBatch ⟨[("p", ⟨"a", 1, 3, none, none, 3⟩)]⟩ "X" true =
      ⟨⟨[("p", ⟨"a", 1, 3, none, none, 3⟩)]⟩, 0, true, true,
        [CommitEvent.saveStore, CommitEvent.unlinkAttempt "X"]⟩ :=
  commit_attempts_delete_unmatched ⟨[("p", ⟨"a", 1, 3, none, none, 3⟩)]⟩ "X" true (by decide)

/-- C9 (code bug): a session line that parses as JSON but not as an object
— here the line `[]` (bytes `[91, 93]`) — makes `obj.get("type")` raise an
uncaught `AttributeError` (modelled `Except.error ()`), aborting the whole
extract pass, instead of being silently dropped as the claim states. -/
theorem nonobject_line_crash :
    decodeLine (fun bs => if bs = [91, 93] then some (Json.arr []) else none) [91, 93] =
      Except.error ()
    ∧ runExtract (fun bs => if bs = [91, 93] then some (Json.arr []) else none)
        ⟨[("p", ⟨"ag", 1, 0, none, none, 0⟩)]⟩ [⟨"ag", "p", 1, [91, 93, 10]⟩] 100 30 "B" =
      Except.error () :=
  ⟨rfl, rfl⟩

/-- C4: the tail read returns only complete newline-terminated lines: if the
chunk actually read contains no newline at all, the result is an empty line
list with `endOffset = startOffset` (stall); otherwise the data is truncated
back to the chunk's last newline (index `k`) and
`endOffset = startOffset + k + 1`, the length of that newline-terminated
prefix — never more than what was read. -/
theorem tailer_newline_boundary (content : List Nat) (s m : Nat) :
    (10 ∉ (content.drop s).take m → readJsonlLines content s m = ([], s))
    ∧ (10 ∈ (content.drop s).take m →
      ∃ k, k < ((content.drop s).take m).length ∧
        ((content.drop s).take m).getD k 0 = 10 ∧
        (∀ j, k < j → j < ((content.drop s).take m).length →
          ((content.drop s).take m).getD j 0 ≠ 10) ∧
        readJsonlLines content s m =
          (splitLines (((content.drop s).take m).take (k + 1)), s + k + 1) ∧
        s + k + 1 ≤ s + ((content.drop s).take m).length) := by
  constructor
  · intro hnm
    have h2 : rfindByte 10 ((content.drop s).take m) = none :=
      rfindByte_none_of_not_mem hnm
    unfold readJsonlLines
    by_cases h0 : (content.drop s).take m = []
    · rw [if_pos h0]
      simp [h0]
    · have h1 : ((content.drop s).take m).getLast? ≠ some 10 := by
        intro hl
        have hlen : 0 < ((content.drop s).take m).length := List.length_pos.2 h0
        have := getLast?_getD hl
        exact hnm (this ▸ getD_mem 0 _ _ (by omega))
      rw [if_neg h0, if_neg h1, h2]
  · intro hm
    unfold readJsonlLines
    by_cases h0 : (content.drop s).take m = []
    · rw [h0] at hm
      simp at hm
    · by_cases h1 : ((content.drop s).take m).getLast? = some 10
      · have hlen : 0 < ((content.drop s).take m).length := List.length_pos.2 h0
        refine ⟨((content.drop s).take m).length - 1, by omega, getLast?_getD h1, ?_, ?_, by omega⟩
        · intro j hj hjl
          exact absurd hjl (by omega)
        · have hk : ((content.drop s).take m).length - 1 + 1 =
            ((content.drop s).take m).length := by omega
          rw [if_neg h0, if_pos h1, hk, List.take_length]
          simp only [Prod.mk.injEq]
          exact ⟨trivial, by omega⟩
      · cases hr : rfindByte 10 ((content.drop s).take m) with
        | none => exact absurd hm (not_mem_of_rfindByte_none hr)
        | some i =>
          obtain ⟨hi, hg, hafter⟩ := rfindByte_spec hr
          refine ⟨i, hi, hg, hafter, ?_, by omega⟩
          rw [if_neg h0, if_neg h1, hr]

theorem tailer_newline_boundary_witness :
    (readJsonlLines [97, 98, 99] 0 10 = ([], 0))
    ∧ (∃ k, k < ((([97, 10, 98] : List Nat).drop 0).take 10).length ∧
        ((([97, 10, 98] : List Nat).drop 0).take 10).getD k 0 = 10 ∧
        (∀ j, k < j → j < ((([97, 10, 98] : List Nat).drop 0).take 10).length →
          ((([97, 10, 98] : List Nat).drop 0).take 10).getD j 0 ≠ 10) ∧
        readJsonlLines [97, 10, 98] 0 10 =
          (splitLines (((([97, 10, 98] : List Nat).drop 0).take 10).take (k + 1)), 0 + k + 1) ∧
        0 + k + 1 ≤ 0 + ((([97, 10, 98] : List Nat).drop 0).take 10).length) :=
  ⟨(tailer_newline_boundary [97, 98, 99] 0 10).1 (by decide),
   (tailer_newline_boundary [97, 10, 98] 0 10).2 (by decide)⟩

/-- C3: at most one batch is outstanding globally.  (a) Whenever any
FileCursor has a non-null `pendingBatch`, an extract call returns the
outstanding batch identifiers, leaves the store unchanged, writes no batch,
and performs no reads.  (b) If an extract call creates a batch, then any
following extract call with no commit in between — whatever files it sees —
returns exactly that batch's identifier, again with no store change, no
batch and no reads; so two consecutive extract calls name the same
outstanding batch. -/
theorem extract_exclusivity :
    (∀ (p : JsonParse) (store : CursorStore) (sessions : List SessionFile)
        (m cap : Nat) (bp : String), pendingBatchesOf store.files ≠ [] →
      runExtract p store sessions m cap bp =
        Except.ok ⟨.pending (pendingBatchesOf store.files), store, none, []⟩)
    ∧ (∀ (p : JsonParse) (store : CursorStore) (sessions : List SessionFile)
        (m cap : Nat) (bp bf : String) (out : ExtractOut)
        (p2 : JsonParse) (sessions2 : List SessionFile) (m2 cap2 : Nat) (bp2 : String),
      bp ≠ "" →
      runExtract p store sessions m cap bp = Except.ok out →
      out.result = .created bf →
      runExtract p2 out.store sessions2 m2 cap2 bp2 =
        Except.ok ⟨.pending [bf], out.store, none, []⟩) := by
  constructor
  · intro p store sessions m cap bp h
    exact runExtract_gate h
  · intro p store sessions m cap bp bf out p2 sessions2 m2 cap2 bp2 hbp h hres
    obtain ⟨hbf, hpend⟩ := runExtract_created hbp h hres
    have hne : pendingBatchesOf out.store.files ≠ [] := by
      rw [hpend]
      simp
    have := @runExtract_gate p2 out.store sessions2 m2 cap2 bp2 hne
    rw [hpend] at this
    rw [hbf]
    exact this

theorem extract_exclusivity_witness :
    runExtract exParse ⟨[("p", ⟨"ag", 1, 0, some 2, some "B", 2⟩)]⟩ [exFile] 100 30 "Z" =
      Except.ok ⟨.pending ["B"], ⟨[("p", ⟨"ag", 1, 0, some 2, some "B", 2⟩)]⟩, none, []⟩
    ∧ runExtract exParse ⟨[("p", ⟨"ag", 1, 0, some 2, some "B", 2⟩)]⟩ [exFile] 50 10 "Bx" =
      Except.ok ⟨.pending ["B"], ⟨[("p", ⟨"ag", 1, 0, some 2, some "B", 2⟩)]⟩, none, []⟩ := by
  constructor
  · exact extract_exclusivity.1 exParse ⟨[("p", ⟨"ag", 1, 0, some 2, some "B", 2⟩)]⟩
      [exFile] 100 30 "Z" (by decide)
  · exact extract_exclusivity.2 exParse exStore0 [exFile] 100 30 "B" "B" exOut
      exParse [exFile] 50 10 "Bx" (by decide) rfl rfl

/-- C2 counterexample: with a per-agent cap of 1, one file stages two
records (`ha` from bytes 0-1, `hb` from bytes 2-3); the created batch
retains only the most recent record (`hb`), yet the file's pending offset is
4, covering both records' bytes.  Committing the batch advances `committed`
to 4, and a later extract pass performs no reads at all (`reads = []`):
the bytes of the discarded record can never be read again — they are lost,
not deferred to a future pass as the claim states. -/
theorem cap_discard_lost_cex :
    runExtract capParse capStore0 [capFile] 100 1 "B" =
      Except.ok ⟨.created "B",
        ⟨[("p", ⟨"ag", 1, 0, some 4, some "B", 4⟩)]⟩,
        some ("B", ⟨1, [⟨"ag", [⟨none, "user", ['h', 'b']⟩]⟩],
          [⟨"p", "ag", 1, 0, 4, 4⟩]⟩),
        [("p", 0, 4)]⟩
    ∧ commitBatch ⟨[("p", ⟨"ag", 1, 0, some 4, some "B", 4⟩)]⟩ "B" true =
      ⟨⟨[("p", ⟨"ag", 1, 4, none, none, 4⟩)]⟩, 1, true, true,
        [CommitEvent.saveStore, CommitEvent.unlinkAttempt "B"]⟩
    ∧ runExtract capParse ⟨[("p", ⟨"ag", 1, 4, none, none, 4⟩)]⟩ [capFile] 100 1 "B2" =
      Except.ok ⟨.noop, ⟨[("p", ⟨"ag", 1, 4, none, none, 4⟩)]⟩, none, []⟩ :=
  ⟨rfl, rfl, rfl⟩

/-- C2 (amended): when an agent's staged record count exceeds a positive
cap, only the most recent `cap` records are retained in the batch (the tail
slice of the staged list); but the older records discarded from the batch
are dropped for good once the batch is committed, because every touched
file's cursor moves `pending` — which covers the discarded records' bytes —
into `committed`. -/
theorem cap_retains_tail_commit_advances :
    (∀ (msgs : List Record) (cap : Nat) (a : String), 0 < cap → cap < msgs.length →
      capAgents [(a, msgs)] cap = [(a, msgs.drop (msgs.length - cap))]
      ∧ (msgs.drop (msgs.length - cap)).length = cap)
    ∧ (∀ (store : CursorStore) (bf : String) (d : Bool) (kv : String × CursorEntry)
        (pnd : Nat), kv ∈ store.files → kv.2.pendingBatch = some bf →
        kv.2.pending = some pnd →
        (kv.1, { kv.2 with committed := pnd, pending := none, pendingBatch := none })
          ∈ (commitBatch store bf d).store.files) := by
  constructor
  · intro msgs cap a hpos hlt
    constructor
    · unfold capAgents tailSlice
      simp only [List.map_cons, List.map_nil]
      rw [if_pos hlt, if_neg (by omega)]
    · rw [List.length_drop]
      omega
  · intro store bf d kv pnd hkv hpb hpnd
    have himg : commitEntry bf kv =
        (kv.1, { kv.2 with committed := pnd, pending := none, pendingBatch := none }) := by
      unfold commitEntry
      rw [if_pos hpb, hpnd]
    have := List.mem_map_of_mem (commitEntry bf) hkv
    rw [himg] at this
    exact this

theorem cap_retains_tail_commit_advances_witness :
    capAgents [("ag", [(⟨none, "user", ['h', 'a']⟩ : Record), ⟨none, "user", ['h', 'b']⟩])] 1 =
      [("ag", [⟨none, "user", ['h', 'b']⟩])]
    ∧ ("p", (⟨"ag", 1, 4, none, none, 4⟩ : CursorEntry)) ∈
      (commitBatch ⟨[("p", ⟨"ag", 1, 0, some 4, some "B", 4⟩)]⟩ "B" true).store.files := by
  constructor
  · have h := (cap_retains_tail_commit_advances.1
      [⟨none, "user", ['h', 'a']⟩, ⟨none, "user", ['h', 'b']⟩] 1 "ag"
      (by decide) (by decide)).1
    exact h
  · exact cap_retains_tail_commit_advances.2
      ⟨[("p", ⟨"ag", 1, 0, some 4, some "B", 4⟩)]⟩ "B" true
      ("p", ⟨"ag", 1, 0, some 4, some "B", 4⟩) 4 (by simp) rfl rfl

/-- One extract pass over a single all-noise file (every line decodes to no
record): the pass is a no-op that creates no batch; when there are new bytes
it advances `committed` to the tail read's end offset with no pending state,
and the invariant (matching inode, no pending batch, committed within the
file and sitting just after a newline or at 0) is preserved. -/
theorem noisePass {p : JsonParse} {f : SessionFile} {m cap : Nat} {bp : String}
    {e : CursorEntry}
    (hp : ∀ l, decodeLine p l = .ok none)
    (hL : ∀ s, s < f.content.length → (s = 0 ∨ f.content.getD (s - 1) 0 = 10) →
      (readJsonlLines f.content s m).1 ≠ [])
    (hinode : e.inode = f.inode) (hpb : e.pendingBatch = none)
    (hle : e.committed ≤ f.content.length)
    (hnl : e.committed = 0 ∨ f.content.getD (e.committed - 1) 0 = 10) :
    ∃ e' rd, runExtract p ⟨[(f.path, e)]⟩ [f] m cap bp =
        .ok ⟨.noop, ⟨[(f.path, e')]⟩, none, rd⟩
      ∧ e'.inode = f.inode ∧ e'.pendingBatch = none ∧ e'.pending = none
      ∧ e'.committed ≤ f.content.length
      ∧ (e'.committed = 0 ∨ f.content.getD (e'.committed - 1) 0 = 10)
      ∧ (e.committed < f.content.length → e.committed < e'.committed
          ∧ e'.committed = (readJsonlLines f.content e.committed m).2
          ∧ rd = [(f.path, e.committed, (readJsonlLines f.content e.committed m).2)])
      ∧ (e.committed = f.content.length → e'.committed = f.content.length ∧ rd = []) := by
  have hg : pendingBatchesOf [(f.path, e)] = [] := by
    apply pendingBatchesOf_eq_nil.2
    intro kv hkv b hb
    have hkveq : kv = (f.path, e) := by simpa using hkv
    rw [hkveq] at hb
    rw [hpb] at hb
    cases hb
  have hlk : lookupList [(f.path, e)] f.path = some e := by simp [lookupList]
  have hso : startOffsetFor (some e) f.inode f.content.length = e.committed := by
    show (if e.inode = f.inode then if f.content.length < e.committed then 0 else e.committed
      else f.content.length) = e.committed
    rw [if_pos hinode, if_neg (by omega)]
  by_cases hsz : f.content.length ≤ e.committed
  · have hceq : e.committed = f.content.length := by omega
    have hpf : processFile p m ⟨[(f.path, e)], [], [], []⟩ f =
        .ok ⟨[(f.path, ⟨f.agentId, f.inode, e.committed, none, none, f.content.length⟩)],
          [], [], []⟩ := by
      unfold processFile
      dsimp only
      rw [hlk, hso, if_pos hsz]
      simp [setEntry]
    have hff : foldFiles p m ⟨[(f.path, e)], [], [], []⟩ [f] =
        .ok ⟨[(f.path, ⟨f.agentId, f.inode, e.committed, none, none, f.content.length⟩)],
          [], [], []⟩ := by
      unfold foldFiles
      rw [hpf]
      rfl
    have hrun : runExtract p ⟨[(f.path, e)]⟩ [f] m cap bp =
        .ok (finishExtract
          ⟨[(f.path, ⟨f.agentId, f.inode, e.committed, none, none, f.content.length⟩)],
            [], [], []⟩ cap bp) := by
      unfold runExtract
      rw [if_pos hg, hff]
    refine ⟨⟨f.agentId, f.inode, e.committed, none, none, f.content.length⟩, [],
      hrun, rfl, rfl, rfl, hle, hnl, ?_, ?_⟩
    · intro h
      exact absurd h (by omega)
    · intro _
      exact ⟨hceq, rfl⟩
  · have hcs : e.committed < f.content.length := by omega
    have hr1 : (readJsonlLines f.content e.committed m).1 ≠ [] := hL e.committed hcs hnl
    have hre : (readJsonlLines f.content e.committed m).1.isEmpty = false := by
      cases hh : (readJsonlLines f.content e.committed m).1 with
      | nil => exact absurd hh hr1
      | cons a t => rfl
    have hpf : processFile p m ⟨[(f.path, e)], [], [], []⟩ f =
        .ok ⟨[(f.path, ⟨f.agentId, f.inode, (readJsonlLines f.content e.committed m).2,
            none, none, f.content.length⟩)], [], [],
          [(f.path, e.committed, (readJsonlLines f.content e.committed m).2)]⟩ := by
      unfold processFile
      dsimp only
      rw [hlk, hso, if_neg hsz, hre, extractRecords_all_none hp]
      simp [setEntry]
    have hff : foldFiles p m ⟨[(f.path, e)], [], [], []⟩ [f] =
        .ok ⟨[(f.path, ⟨f.agentId, f.inode, (readJsonlLines f.content e.committed m).2,
            none, none, f.content.length⟩)], [], [],
          [(f.path, e.committed, (readJsonlLines f.content e.committed m).2)]⟩ := by
      unfold foldFiles
      rw [hpf]
      rfl
    have hrun : runExtract p ⟨[(f.path, e)]⟩ [f] m cap bp =
        .ok (finishExtract ⟨[(f.path, ⟨f.agentId, f.inode,
            (readJsonlLines f.content e.committed m).2, none, none, f.content.length⟩)],
          [], [], [(f.path, e.committed, (readJsonlLines f.content e.committed m).2)]⟩
          cap bp) := by
      unfold runExtract
      rw [if_pos hg, hff]
    refine ⟨⟨f.agentId, f.inode, (readJsonlLines f.content e.committed m).2,
        none, none, f.content.length⟩,
      [(f.path, e.committed, (readJsonlLines f.content e.committed m).2)],
      hrun, rfl, rfl, rfl, readJsonlLines_le (by omega), Or.inr (readJsonlLines_end_nl hr1),
      ?_, ?_⟩
    · intro _
      exact ⟨readJsonlLines_progress hr1, rfl, rfl⟩
    · intro h
      exact absurd h (by omega)

/-- Iterating extract passes over a single all-noise file drives the stored
committed offset to the file's size within `n` passes, where `n` bounds the
remaining byte count. -/
theorem noiseIterCommitted {p : JsonParse} {f : SessionFile} {m cap : Nat}
    (hp : ∀ l, decodeLine p l = .ok none)
    (hL : ∀ s, s < f.content.length → (s = 0 ∨ f.content.getD (s - 1) 0 = 10) →
      (readJsonlLines f.content s m).1 ≠ []) :
    ∀ (n : Nat) (e : CursorEntry), e.inode = f.inode → e.pendingBatch = none →
      e.committed ≤ f.content.length →
      (e.committed = 0 ∨ f.content.getD (e.committed - 1) 0 = 10) →
      f.content.length - e.committed ≤ n →
      committedAt ((extractStep p f m cap)^[n] ⟨[(f.path, e)]⟩) f.path =
        some f.content.length := by
  intro n
  induction n with
  | zero =>
    intro e h1 h2 h3 h4 h5
    have hc : e.committed = f.content.length := by omega
    simp [committedAt, lookupList, hc]
  | succ n ih =>
    intro e h1 h2 h3 h4 h5
    obtain ⟨e', rd, hrun, hi, hb, hpd, hle', hnl', hlt, heq⟩ :=
      @noisePass p f m cap "batch" e hp hL h1 h2 h3 h4
    have hstep : extractStep p f m cap ⟨[(f.path, e)]⟩ = ⟨[(f.path, e')]⟩ := by
      unfold extractStep
      rw [hrun]
    rw [Function.iterate_succ_apply, hstep]
    apply ih e' hi hb hle' hnl'
    by_cases hc : e.committed < f.content.length
    · obtain ⟨hprog, _, _⟩ := hlt hc
      omega
    · obtain ⟨he', _⟩ := heq (by omega)
      omega

/-- After any number of extract passes over a single all-noise file, the
store still holds a single entry for that path satisfying the pass
invariant. -/
theorem noiseIterShape {p : JsonParse} {f : SessionFile} {m cap : Nat}
    (hp : ∀ l, decodeLine p l = .ok none)
    (hL : ∀ s, s < f.content.length → (s = 0 ∨ f.content.getD (s - 1) 0 = 10) →
      (readJsonlLines f.content s m).1 ≠ []) :
    ∀ (j : Nat) (e : CursorEntry), e.inode = f.inode → e.pendingBatch = none →
      e.committed ≤ f.content.length →
      (e.committed = 0 ∨ f.content.getD (e.committed - 1) 0 = 10) →
      ∃ e', (extractStep p f m cap)^[j] ⟨[(f.path, e)]⟩ = ⟨[(f.path, e')]⟩
        ∧ e'.inode = f.inode ∧ e'.pendingBatch = none
        ∧ e'.committed ≤ f.content.length
        ∧ (e'.committed = 0 ∨ f.content.getD (e'.committed - 1) 0 = 10) := by
  intro j
  induction j with
  | zero =>
    intro e h1 h2 h3 h4
    exact ⟨e, by simp, h1, h2, h3, h4⟩
  | succ j ih =>
    intro e h1 h2 h3 h4
    obtain ⟨e', rd, hrun, hi, hb, hpd, hle', hnl', _, _⟩ :=
      @noisePass p f m cap "batch" e hp hL h1 h2 h3 h4
    have hstep : extractStep p f m cap ⟨[(f.path, e)]⟩ = ⟨[(f.path, e')]⟩ := by
      unfold extractStep
      rw [hrun]
    rw [Function.iterate_succ_apply, hstep]
    exact ih e' hi hb hle' hnl'

/-- C8 (amended): over a file whose lines all decode to no usable record,
an extract pass with new bytes advances `committed` directly to the Tailer's
end offset and creates no pending state — provided the tail read returns at
least one complete nonempty line; consequently, iterating extract calls
reaches `committed = current size` after finitely many passes, with no pass
ever producing a batch (every pass is a no-op).  The hypotheses say: the
parse oracle yields no record for any line, every tail read started below
the end of file at a line boundary returns at least one (nonempty) complete
line — i.e. the noise lines are complete, non-blank, and fit within
`maxBytes` — and the stored cursor matches the file and sits at a line
boundary.  Without that proviso the pass skips the file entirely, without
advancing: see the blank-line livelock counterexample below. -/
theorem noise_skip_convergence (p : JsonParse) (f : SessionFile) (m cap : Nat)
    (e₀ : CursorEntry)
    (hp : ∀ l, decodeLine p l = .ok none)
    (hL : ∀ s, s < f.content.length → (s = 0 ∨ f.content.getD (s - 1) 0 = 10) →
      (readJsonlLines f.content s m).1 ≠ [])
    (hinode : e₀.inode = f.inode) (hpb : e₀.pendingBatch = none)
    (hle : e₀.committed ≤ f.content.length)
    (hnl : e₀.committed = 0 ∨ f.content.getD (e₀.committed - 1) 0 = 10) :
    (e₀.committed < f.content.length →
      ∃ e', runExtract p ⟨[(f.path, e₀)]⟩ [f] m cap "batch" =
          .ok ⟨.noop, ⟨[(f.path, e')]⟩, none,
            [(f.path, e₀.committed, (readJsonlLines f.content e₀.committed m).2)]⟩
        ∧ e'.committed = (readJsonlLines f.content e₀.committed m).2
        ∧ e'.pending = none ∧ e'.pendingBatch = none)
    ∧ (∃ n, committedAt ((extractStep p f m cap)^[n] ⟨[(f.path, e₀)]⟩) f.path =
        some f.content.length)
    ∧ (∀ j, ∃ st rd,
        runExtract p ((extractStep p f m cap)^[j] ⟨[(f.path, e₀)]⟩) [f] m cap "batch" =
          .ok ⟨.noop, st, none, rd⟩) := by
  refine ⟨?_, ?_, ?_⟩
  · intro hlt
    obtain ⟨e', rd, hrun, hi, hb, hpd, hle', hnl', hltc, _⟩ :=
      @noisePass p f m cap "batch" e₀ hp hL hinode hpb hle hnl
    obtain ⟨hprog, hcom, hrd⟩ := hltc hlt
    refine ⟨e', ?_, hcom, hpd, hb⟩
    rw [hrd] at hrun
    exact hrun
  · exact ⟨f.content.length,
      noiseIterCommitted hp hL f.content.length e₀ hinode hpb hle hnl (by omega)⟩
  · intro j
    obtain ⟨e', hform, hi, hb, hle', hnl'⟩ :=
      @noiseIterShape p f m cap hp hL j e₀ hinode hpb hle hnl
    obtain ⟨e2, rd, hrun, _⟩ :=
      @noisePass p f m cap "batch" e' hp hL hi hb hle' hnl'
    rw [hform]
    exact ⟨⟨[(f.path, e2)]⟩, rd, hrun⟩

theorem noise_skip_convergence_witness :
    ((0 : Nat) < 2 →
      ∃ e', runExtract (fun _ => none) ⟨[("p", ⟨"a", 1, 0, none, none, 0⟩)]⟩
          [⟨"a", "p", 1, [78, 10]⟩] 5 30 "batch" =
        .ok ⟨.noop, ⟨[("p", e')]⟩, none, [("p", 0, (readJsonlLines [78, 10] 0 5).2)]⟩
        ∧ e'.committed = (readJsonlLines [78, 10] 0 5).2
        ∧ e'.pending = none ∧ e'.pendingBatch = none)
    ∧ (∃ n, committedAt
        ((extractStep (fun _ => none) ⟨"a", "p", 1, [78, 10]⟩ 5 30)^[n]
          ⟨[("p", ⟨"a", 1, 0, none, none, 0⟩)]⟩) "p" = some 2)
    ∧ (∀ j, ∃ st rd,
        runExtract (fun _ => none)
          ((extractStep (fun _ => none) ⟨"a", "p", 1, [78, 10]⟩ 5 30)^[j]
            ⟨[("p", ⟨"a", 1, 0, none, none, 0⟩)]⟩)
          [⟨"a", "p", 1, [78, 10]⟩] 5 30 "batch" =
          .ok ⟨.noop, st, none, rd⟩) := by
  have h := noise_skip_convergence (fun _ => none) ⟨"a", "p", 1, [78, 10]⟩ 5 30
    ⟨"a", 1, 0, none, none, 0⟩
    (fun l => rfl)
    (by
      intro s hs hnl
      have hs2 : s < 2 := hs
      interval_cases s
      · decide
      · rcases hnl with h1 | h1
        · omega
        · exact absurd h1 (by decide))
    rfl rfl (by decide) (Or.inl rfl)
  exact h

/-- C8 counterexample: a file containing only a blank line — content
`b"\n"`, only filtered-out content — refutes the original claim.  The tail
read consumes the byte (`readJsonlLines [10] 0 5 = ([], 1)`, end offset 1)
and decoding yields zero usable records, yet the pass takes the
`if not lines: continue` path (lines 262-264): the stored entry is left at
`committed = 0` instead of being advanced to the Tailer's end offset, the
store after the pass equals the store before it, and therefore after any
number of extract calls `committed` is still 0 — it never reaches the
current size 1. -/
theorem blank_line_livelock_cex :
    readJsonlLines [10] 0 5 = ([], 1)
    ∧ runExtract (fun _ => none) ⟨[("p", ⟨"a", 1, 0, none, none, 1⟩)]⟩
        [⟨"a", "p", 1, [10]⟩] 5 30 "B" =
      .ok ⟨.noop, ⟨[("p", ⟨"a", 1, 0, none, none, 1⟩)]⟩, none, [("p", 0, 1)]⟩
    ∧ (∀ n, committedAt
        ((extractStep (fun _ => none) ⟨"a", "p", 1, [10]⟩ 5 30)^[n]
          ⟨[("p", ⟨"a", 1, 0, none, none, 1⟩)]⟩) "p" = some 0)
    ∧ ¬(∃ n, committedAt
        ((extractStep (fun _ => none) ⟨"a", "p", 1, [10]⟩ 5 30)^[n]
          ⟨[("p", ⟨"a", 1, 0, none, none, 1⟩)]⟩) "p" = some (([10] : List Nat).length)) := by
  have hfix : extractStep (fun _ => none) ⟨"a", "p", 1, [10]⟩ 5 30
      ⟨[("p", ⟨"a", 1, 0, none, none, 1⟩)]⟩ = ⟨[("p", ⟨"a", 1, 0, none, none, 1⟩)]⟩ := rfl
  refine ⟨rfl, rfl, ?_, ?_⟩
  · intro n
    rw [Function.iterate_fixed hfix n]
    rfl
  · rintro ⟨n, hn⟩
    rw [Function.iterate_fixed hfix n] at hn
    exact absurd hn (by decide)
